import Mathlib

/-
Verification of the structured-kernel-matrix linear-algebra engine of a
Gaussian-process library. The engine (lazy operators, conjugate-gradient
solver, structured solves) is embedded shallowly over exact rational
arithmetic; the example notebook data pipeline is embedded over lists of
rationals. Definitions are modelled from the specification where the engine
source is not part of the visible repository, as noted in each doc comment.
-/

open Matrix

set_option maxRecDepth 100000

unseal Rat.add Rat.mul Rat.inv Rat.sub Rat.ofScientific

/-- Modelled from the spec: ephemeral per-call conjugate-gradient solver state
(current solution estimate, residual, search direction, iteration counter);
the engine source is absent from the repository. -/
structure CGState (n : ℕ) where
  x : Fin n → ℚ
  r : Fin n → ℚ
  p : Fin n → ℚ
  iters : ℕ

/-- Modelled from the spec: one step of the standard conjugate-gradient
recurrence (unpreconditioned), over exact rationals. -/
def cgStep {n : ℕ} (A : Matrix (Fin n) (Fin n) ℚ) (s : CGState n) : CGState n :=
  let Ap := A.mulVec s.p
  let rr := dotProduct s.r s.r
  let pAp := dotProduct s.p Ap
  let al := rr / pAp
  let x1 := s.x + al • s.p
  let r1 := s.r - al • Ap
  let rr1 := dotProduct r1 r1
  let be := rr1 / rr
  ⟨x1, r1, r1 + be • s.p, s.iters + 1⟩

/-- Modelled from the spec: fresh solver state for a solve of A x = b, starting
from the zero estimate so the initial residual and search direction equal b. -/
def cgInit {n : ℕ} (b : Fin n → ℚ) : CGState n :=
  ⟨0, b, b, 0⟩

/-- Modelled from the spec: the conjugate-gradient loop. It stops as soon as
the squared residual norm falls below tol2 times the squared norm of b
(the squared form of the relative-residual test, exact over the rationals),
or when the iteration fuel (the configured iteration cap) runs out. The
returned Boolean is true when the tolerance test was met. -/
def cgLoop {n : ℕ} (A : Matrix (Fin n) (Fin n) ℚ) (tol2 bSq : ℚ) :
    ℕ → CGState n → CGState n × Bool
  | 0, s => (s, decide (dotProduct s.r s.r ≤ tol2 * bSq))
  | fuel + 1, s =>
    if dotProduct s.r s.r ≤ tol2 * bSq then (s, true)
    else cgLoop A tol2 bSq fuel (cgStep A s)

/-- Result of one conjugate-gradient solve: the estimate, the number of
iterations used, and whether a did-not-fully-converge warning is raised. -/
structure CGResult (n : ℕ) where
  solution : Fin n → ℚ
  iterations : ℕ
  warning : Bool

/-- Modelled from the spec: the conjugate-gradient solve. When the cap
preempts convergence the best available estimate is returned together with
the convergence warning rather than a failure. -/
def cgSolve {n : ℕ} (A : Matrix (Fin n) (Fin n) ℚ) (b : Fin n → ℚ)
    (tol2 : ℚ) (maxIter : ℕ) : CGResult n :=
  let res := cgLoop A tol2 (dotProduct b b) maxIter (cgInit b)
  ⟨res.1.x, res.1.iters, !res.2⟩

/-- Squared norm of the residual b - A x of a candidate solution x. -/
def resSq {n : ℕ} (A : Matrix (Fin n) (Fin n) ℚ) (b x : Fin n → ℚ) : ℚ :=
  dotProduct (b - A.mulVec x) (b - A.mulVec x)

/-- Error taxonomy of the engine, from the spec. -/
inductive GPError where
  | shapeMismatch
  | numericalError
deriving DecidableEq

/-- Modelled from the spec: finiteness test on a scalar. Over the exact
rationals of this embedding there are no NaN or infinite values, so every
scalar is finite; the IEEE non-finite check of the source degenerates to the
constantly-true test. -/
def qIsFinite (_q : ℚ) : Bool := true

/-- Outcome of a checked solve: either an estimate with its convergence
warning flag, or a hard failure. -/
inductive SolveOutcome (n : ℕ) where
  | success (x : Fin n → ℚ) (warning : Bool)
  | failure (e : GPError)
deriving DecidableEq

/-- Modelled from the spec: the solve entry point. A convergence shortfall is
recoverable (estimate plus warning); it is escalated to a hard NumericalError
only when the returned estimate contains non-finite values. -/
def solveChecked {n : ℕ} (A : Matrix (Fin n) (Fin n) ℚ) (b : Fin n → ℚ)
    (tol2 : ℚ) (maxIter : ℕ) : SolveOutcome n :=
  let res := cgSolve A b tol2 maxIter
  if ∀ i, qIsFinite (res.solution i) = true then .success res.solution res.warning
  else .failure .numericalError

-- Loop lemmas: the returned residual really is the residual of the returned
-- estimate, the convergence flag is honest, and iteration counts are capped.

theorem cgStep_residual {n : ℕ} (A : Matrix (Fin n) (Fin n) ℚ) (b : Fin n → ℚ)
    (s : CGState n) (hs : s.r = b - A.mulVec s.x) :
    (cgStep A s).r = b - A.mulVec (cgStep A s).x := by
  simp only [cgStep, Matrix.mulVec_add, Matrix.mulVec_smul, hs]
  abel

theorem cgLoop_residual {n : ℕ} (A : Matrix (Fin n) (Fin n) ℚ) (tol2 bSq : ℚ)
    (b : Fin n → ℚ) :
    ∀ (fuel : ℕ) (s : CGState n), s.r = b - A.mulVec s.x →
      (cgLoop A tol2 bSq fuel s).1.r = b - A.mulVec (cgLoop A tol2 bSq fuel s).1.x
  | 0, s, hs => hs
  | fuel + 1, s, hs => by
    unfold cgLoop
    by_cases h : dotProduct s.r s.r ≤ tol2 * bSq
    · simpa [h] using hs
    · simpa [h] using
        cgLoop_residual A tol2 bSq b fuel (cgStep A s) (cgStep_residual A b s hs)

theorem cgLoop_flag_true {n : ℕ} (A : Matrix (Fin n) (Fin n) ℚ) (tol2 bSq : ℚ) :
    ∀ (fuel : ℕ) (s : CGState n), (cgLoop A tol2 bSq fuel s).2 = true →
      dotProduct (cgLoop A tol2 bSq fuel s).1.r (cgLoop A tol2 bSq fuel s).1.r
        ≤ tol2 * bSq
  | 0, s, h => by
    simp only [cgLoop] at h ⊢
    exact of_decide_eq_true h
  | fuel + 1, s, h => by
    by_cases hc : dotProduct s.r s.r ≤ tol2 * bSq
    · simp [cgLoop, hc]
    · have h2 : (cgLoop A tol2 bSq fuel (cgStep A s)).2 = true := by
        simpa [cgLoop, hc] using h
      simpa [cgLoop, hc] using cgLoop_flag_true A tol2 bSq fuel (cgStep A s) h2

theorem cgLoop_flag_false {n : ℕ} (A : Matrix (Fin n) (Fin n) ℚ) (tol2 bSq : ℚ) :
    ∀ (fuel : ℕ) (s : CGState n), (cgLoop A tol2 bSq fuel s).2 = false →
      (cgLoop A tol2 bSq fuel s).1.iters = s.iters + fuel
  | 0, s, _ => by simp [cgLoop]
  | fuel + 1, s, h => by
    by_cases hc : dotProduct s.r s.r ≤ tol2 * bSq
    · simp [cgLoop, hc] at h
    · have h2 : (cgLoop A tol2 bSq fuel (cgStep A s)).2 = false := by
        simpa [cgLoop, hc] using h
      have := cgLoop_flag_false A tol2 bSq fuel (cgStep A s) h2
      simp only [cgLoop, if_neg hc]
      rw [this]
      simp [cgStep]
      omega

theorem cgLoop_iters_le {n : ℕ} (A : Matrix (Fin n) (Fin n) ℚ) (tol2 bSq : ℚ) :
    ∀ (fuel : ℕ) (s : CGState n),
      (cgLoop A tol2 bSq fuel s).1.iters ≤ s.iters + fuel
  | 0, s => by simp [cgLoop]
  | fuel + 1, s => by
    by_cases hc : dotProduct s.r s.r ≤ tol2 * bSq
    · simp [cgLoop, hc]
    · have := cgLoop_iters_le A tol2 bSq fuel (cgStep A s)
      simp only [cgLoop, if_neg hc]
      simp only [cgStep] at this ⊢
      omega

theorem cg_converged_resSq {n : ℕ} (A : Matrix (Fin n) (Fin n) ℚ)
    (b : Fin n → ℚ) (tol2 : ℚ) (m : ℕ)
    (hconv : (cgSolve A b tol2 m).warning = false) :
    resSq A b (cgSolve A b tol2 m).solution ≤ tol2 * dotProduct b b := by
  have hres := cgLoop_residual A tol2 (dotProduct b b) b m (cgInit b)
    (by simp [cgInit])
  have hflag : (cgLoop A tol2 (dotProduct b b) m (cgInit b)).2 = true := by
    simp only [cgSolve, Bool.not_eq_false'] at hconv
    exact hconv
  have hle := cgLoop_flag_true A tol2 (dotProduct b b) m (cgInit b) hflag
  rw [hres] at hle
  simpa [resSq, cgSolve] using hle

/-- A small symmetric positive-definite operator used as a concrete instance. -/
def cexA : Matrix (Fin 2) (Fin 2) ℚ := !![1, 0; 0, 4]

/-- A concrete right-hand side for the counterexample instance. -/
def cexB : Fin 2 → ℚ := ![1, 1]

theorem cexA_posdef : ∀ v : Fin 2 → ℚ, v ≠ 0 → 0 < dotProduct v (cexA.mulVec v) := by
  intro v hv
  have hv2 : v 0 ≠ 0 ∨ v 1 ≠ 0 := by
    by_contra h
    push_neg at h
    exact hv (funext fun i => by fin_cases i <;> simp [h.1, h.2])
  have hval : dotProduct v (cexA.mulVec v) = v 0 * v 0 + 4 * (v 1 * v 1) := by
    simp [cexA, dotProduct, Matrix.mulVec, Fin.sum_univ_two]
    ring
  rw [hval]
  rcases hv2 with h | h
  · nlinarith [mul_self_pos.mpr h, mul_self_nonneg (v 1)]
  · nlinarith [mul_self_pos.mpr h, mul_self_nonneg (v 0)]

/-- Claim C1 counterexample: on the symmetric positive-definite operator cexA
with right-hand side cexB, squared relative tolerance 1/1000000 and iteration
cap 1, the iteration cap preempts convergence and the returned estimate
misses the tolerance, so A applied to solve(A, b) does not approximate b
within the configured tolerance. -/
theorem cg_tolerance_counterexample :
    cexA.transpose = cexA ∧
      (∀ v : Fin 2 → ℚ, v ≠ 0 → 0 < dotProduct v (cexA.mulVec v)) ∧
      (cgSolve cexA cexB (1/1000000) 1).warning = true ∧
      ¬ resSq cexA cexB (cgSolve cexA cexB (1/1000000) 1).solution
          ≤ (1/1000000) * dotProduct cexB cexB :=
  ⟨by decide, cexA_posdef, by decide, by decide⟩

/-- Claim C1 (amended): whenever the conjugate-gradient solve terminates by
meeting the relative-residual tolerance (that is, without a convergence
warning), applying A to the returned solution leaves a squared residual
within the squared tolerance times the squared norm of b; when the iteration
cap preempts convergence the returned estimate may miss the tolerance, which
the warning flags. -/
theorem cg_solve_within_tolerance_when_converged {n : ℕ}
    (A : Matrix (Fin n) (Fin n) ℚ) (b : Fin n → ℚ) (tol2 : ℚ) (m : ℕ)
    (hconv : (cgSolve A b tol2 m).warning = false) :
    resSq A b (cgSolve A b tol2 m).solution ≤ tol2 * dotProduct b b :=
  cg_converged_resSq A b tol2 m hconv

theorem cg_solve_within_tolerance_witness :
    (cgSolve (1 : Matrix (Fin 2) (Fin 2) ℚ) ![1, 1] (1/2) 2).warning = false ∧
      resSq 1 ![1, 1] (cgSolve (1 : Matrix (Fin 2) (Fin 2) ℚ) ![1, 1] (1/2) 2).solution
        ≤ 1/2 * dotProduct ![1, 1] ![1, 1] :=
  ⟨by decide, cg_solve_within_tolerance_when_converged 1 ![1, 1] (1/2) 2 (by decide)⟩

/-- Claim C2: every conjugate-gradient solve stops at the tolerance or at the
iteration cap; when it stops at the tolerance the returned residual meets the
tolerance; when the cap is hit the iteration count equals the cap and the best
available estimate is returned, together with the convergence warning, through
the checked entry point as a success rather than a failure; and the checked
entry point escalates to a hard NumericalError only when the returned
estimate contains a non-finite value. -/
theorem cg_termination_and_warning {n : ℕ} (A : Matrix (Fin n) (Fin n) ℚ)
    (b : Fin n → ℚ) (tol2 : ℚ) (m : ℕ) :
    (cgSolve A b tol2 m).iterations ≤ m ∧
      ((cgSolve A b tol2 m).warning = false →
        resSq A b (cgSolve A b tol2 m).solution ≤ tol2 * dotProduct b b) ∧
      ((cgSolve A b tol2 m).warning = true → (cgSolve A b tol2 m).iterations = m) ∧
      solveChecked A b tol2 m
        = SolveOutcome.success (cgSolve A b tol2 m).solution (cgSolve A b tol2 m).warning ∧
      (∀ e, solveChecked A b tol2 m = SolveOutcome.failure e →
        ∃ i, qIsFinite ((cgSolve A b tol2 m).solution i) = false) := by
  have hsucc : solveChecked A b tol2 m
      = SolveOutcome.success (cgSolve A b tol2 m).solution (cgSolve A b tol2 m).warning := by
    simp [solveChecked, qIsFinite]
  refine ⟨?_, fun h => cg_converged_resSq A b tol2 m h, ?_, hsucc, ?_⟩
  · have := cgLoop_iters_le A tol2 (dotProduct b b) m (cgInit b)
    simpa [cgSolve, cgInit] using this
  · intro hw
    have hflag : (cgLoop A tol2 (dotProduct b b) m (cgInit b)).2 = false := by
      simp only [cgSolve, Bool.not_eq_true'] at hw
      exact hw
    have := cgLoop_flag_false A tol2 (dotProduct b b) m (cgInit b) hflag
    simpa [cgSolve, cgInit] using this
  · intro e he
    rw [hsucc] at he
    exact absurd he (by simp)

theorem cg_termination_and_warning_witness :
    (cgSolve (1 : Matrix (Fin 2) (Fin 2) ℚ) ![1, 1] (1/2) 2).iterations ≤ 2 ∧
      ((cgSolve (1 : Matrix (Fin 2) (Fin 2) ℚ) ![1, 1] (1/2) 2).warning = false →
        resSq 1 ![1, 1] (cgSolve (1 : Matrix (Fin 2) (Fin 2) ℚ) ![1, 1] (1/2) 2).solution
          ≤ 1/2 * dotProduct ![1, 1] ![1, 1]) ∧
      ((cgSolve (1 : Matrix (Fin 2) (Fin 2) ℚ) ![1, 1] (1/2) 2).warning = true →
        (cgSolve (1 : Matrix (Fin 2) (Fin 2) ℚ) ![1, 1] (1/2) 2).iterations = 2) ∧
      solveChecked (1 : Matrix (Fin 2) (Fin 2) ℚ) ![1, 1] (1/2) 2
        = SolveOutcome.success
            (cgSolve (1 : Matrix (Fin 2) (Fin 2) ℚ) ![1, 1] (1/2) 2).solution
            (cgSolve (1 : Matrix (Fin 2) (Fin 2) ℚ) ![1, 1] (1/2) 2).warning ∧
      (∀ e, solveChecked (1 : Matrix (Fin 2) (Fin 2) ℚ) ![1, 1] (1/2) 2
          = SolveOutcome.failure e →
        ∃ i, qIsFinite ((cgSolve (1 : Matrix (Fin 2) (Fin 2) ℚ) ![1, 1] (1/2) 2).solution i)
          = false) :=
  cg_termination_and_warning 1 ![1, 1] (1/2) 2

/-- Claim C7: a zero right-hand side yields the zero solution after zero
iterations with no convergence warning, for every operator, tolerance and
iteration cap. -/
theorem cg_zero_rhs {n : ℕ} (A : Matrix (Fin n) (Fin n) ℚ) (tol2 : ℚ) (m : ℕ) :
    (cgSolve A 0 tol2 m).solution = 0 ∧ (cgSolve A 0 tol2 m).iterations = 0 ∧
      (cgSolve A 0 tol2 m).warning = false := by
  cases m with
  | zero => simp [cgSolve, cgLoop, cgInit]
  | succ m => simp [cgSolve, cgLoop, cgInit]

-- Conjugate-gradient iterates, the squared A-norm of the error, and the
-- residual trace of a solve.

/-- The k-th state of the conjugate-gradient recurrence started at the zero
estimate for right-hand side b: the states a solve visits before its
termination test stops it. -/
def cgIter {n : ℕ} (A : Matrix (Fin n) (Fin n) ℚ) (b : Fin n → ℚ) : ℕ → CGState n
  | 0 => cgInit b
  | k + 1 => cgStep A (cgIter A b k)

/-- Squared A-norm of the error of the estimate x against the true solution
xstar, an exact stand-in for the energy norm minimised by conjugate
gradients. -/
def errASq {n : ℕ} (A : Matrix (Fin n) (Fin n) ℚ) (xstar x : Fin n → ℚ) : ℚ :=
  dotProduct (xstar - x) (A.mulVec (xstar - x))

/-- Modelled from the spec: the squared residual norms the conjugate-gradient
loop observes, in visiting order; same control flow as the loop itself. -/
def cgTrace {n : ℕ} (A : Matrix (Fin n) (Fin n) ℚ) (tol2 bSq : ℚ) :
    ℕ → CGState n → List ℚ
  | 0, s => [dotProduct s.r s.r]
  | fuel + 1, s =>
    if dotProduct s.r s.r ≤ tol2 * bSq then [dotProduct s.r s.r]
    else dotProduct s.r s.r :: cgTrace A tol2 bSq fuel (cgStep A s)

/-- The squared residual norms observed during one solve of A x = b. -/
def cgSolveTrace {n : ℕ} (A : Matrix (Fin n) (Fin n) ℚ) (b : Fin n → ℚ)
    (tol2 : ℚ) (maxIter : ℕ) : List ℚ :=
  cgTrace A tol2 (dotProduct b b) maxIter (cgInit b)

theorem dotProduct_self_nonneg_q {n : ℕ} (v : Fin n → ℚ) : 0 ≤ dotProduct v v :=
  Finset.sum_nonneg fun i _ => mul_self_nonneg (v i)

theorem dotProduct_self_pos_q {n : ℕ} (v : Fin n → ℚ) (hv : v ≠ 0) :
    0 < dotProduct v v :=
  lt_of_le_of_ne (dotProduct_self_nonneg_q v)
    fun h => hv (dotProduct_self_eq_zero.mp h.symm)

theorem dotProduct_mulVec_symm {n : ℕ} {A : Matrix (Fin n) (Fin n) ℚ}
    (hA : A.transpose = A) (u w : Fin n → ℚ) :
    dotProduct u (A.mulVec w) = dotProduct (A.mulVec u) w := by
  rw [Matrix.dotProduct_mulVec, ← Matrix.mulVec_transpose, hA]

/-- The conjugate-gradient loop invariant: the stored residual is the true
residual of the stored estimate, and the inner product of search direction
and residual equals the squared residual norm. -/
def cgInv {n : ℕ} (A : Matrix (Fin n) (Fin n) ℚ) (b : Fin n → ℚ)
    (s : CGState n) : Prop :=
  s.r = b - A.mulVec s.x ∧ dotProduct s.p s.r = dotProduct s.r s.r

theorem cgStep_inv_and_decrease {n : ℕ} {A : Matrix (Fin n) (Fin n) ℚ}
    {b xstar : Fin n → ℚ} (hA : A.transpose = A)
    (hpd : ∀ v, v ≠ 0 → 0 < dotProduct v (A.mulVec v))
    (hsol : A.mulVec xstar = b) (s : CGState n) (hs : cgInv A b s) :
    cgInv A b (cgStep A s) ∧ errASq A xstar (cgStep A s).x ≤ errASq A xstar s.x := by
  obtain ⟨h1, h2⟩ := hs
  by_cases hrr : dotProduct s.r s.r = 0
  · have hr0 : s.r = 0 := dotProduct_self_eq_zero.mp hrr
    have hx : (cgStep A s).x = s.x := by simp [cgStep, hr0]
    have hrnew : (cgStep A s).r = 0 := by simp [cgStep, hr0]
    have hpnew : (cgStep A s).p = 0 := by simp [cgStep, hr0]
    refine ⟨⟨?_, ?_⟩, ?_⟩
    · rw [hrnew, hx, ← h1, hr0]
    · rw [hrnew, hpnew]
    · rw [hx]
  · have hrrpos : 0 < dotProduct s.r s.r :=
      lt_of_le_of_ne (dotProduct_self_nonneg_q s.r) (Ne.symm hrr)
    have hp0 : s.p ≠ 0 := by
      intro h
      rw [h, Matrix.zero_dotProduct] at h2
      exact hrr h2.symm
    have hpAp : 0 < dotProduct s.p (A.mulVec s.p) := hpd s.p hp0
    have hcancel : dotProduct s.r s.r / dotProduct s.p (A.mulVec s.p)
        * dotProduct s.p (A.mulVec s.p) = dotProduct s.r s.r :=
      div_mul_cancel₀ _ (ne_of_gt hpAp)
    have hxnew : (cgStep A s).x
        = s.x + (dotProduct s.r s.r / dotProduct s.p (A.mulVec s.p)) • s.p := rfl
    have hrnew : (cgStep A s).r
        = s.r - (dotProduct s.r s.r / dotProduct s.p (A.mulVec s.p))
            • A.mulVec s.p := rfl
    have hpnew : (cgStep A s).p
        = (cgStep A s).r + (dotProduct (cgStep A s).r (cgStep A s).r
            / dotProduct s.r s.r) • s.p := rfl
    have hJ1 : (cgStep A s).r = b - A.mulVec (cgStep A s).x :=
      cgStep_residual A b s h1
    have hpr1 : dotProduct s.p (cgStep A s).r = 0 := by
      rw [hrnew, dotProduct_sub, dotProduct_smul, smul_eq_mul, h2, hcancel, sub_self]
    have hJ2 : dotProduct (cgStep A s).p (cgStep A s).r
        = dotProduct (cgStep A s).r (cgStep A s).r := by
      rw [hpnew, add_dotProduct, smul_dotProduct, smul_eq_mul, hpr1, mul_zero,
        add_zero]
    have hAe : A.mulVec (xstar - s.x) = s.r := by
      rw [Matrix.mulVec_sub, hsol]
      exact h1.symm
    have h3 : dotProduct (xstar - s.x) (A.mulVec s.p) = dotProduct s.r s.r := by
      rw [dotProduct_mulVec_symm hA, hAe, dotProduct_comm, h2]
    have h4 : dotProduct s.p (A.mulVec (xstar - s.x)) = dotProduct s.r s.r := by
      rw [hAe, h2]
    have key : errASq A xstar (cgStep A s).x
        = errASq A xstar s.x
          - dotProduct s.r s.r / dotProduct s.p (A.mulVec s.p)
            * dotProduct s.r s.r := by
      unfold errASq
      rw [hxnew]
      have he : xstar - (s.x + (dotProduct s.r s.r
            / dotProduct s.p (A.mulVec s.p)) • s.p)
          = (xstar - s.x) - (dotProduct s.r s.r
            / dotProduct s.p (A.mulVec s.p)) • s.p := by
        abel
      rw [he]
      generalize hE : xstar - s.x = e at h3 h4 ⊢
      simp only [Matrix.mulVec_sub, Matrix.mulVec_smul, dotProduct_sub,
        sub_dotProduct, dotProduct_smul, smul_dotProduct, smul_eq_mul, h3, h4]
      linear_combination dotProduct s.r s.r / dotProduct s.p (A.mulVec s.p) * hcancel
    refine ⟨⟨hJ1, hJ2⟩, ?_⟩
    rw [key]
    have hpos : 0 < dotProduct s.r s.r / dotProduct s.p (A.mulVec s.p)
        * dotProduct s.r s.r :=
      mul_pos (div_pos hrrpos hpAp) hrrpos
    linarith

theorem cgIter_inv {n : ℕ} (A : Matrix (Fin n) (Fin n) ℚ) (b xstar : Fin n → ℚ)
    (hA : A.transpose = A) (hpd : ∀ v, v ≠ 0 → 0 < dotProduct v (A.mulVec v))
    (hsol : A.mulVec xstar = b) : ∀ k, cgInv A b (cgIter A b k)
  | 0 => by
    constructor <;> simp [cgIter, cgInit]
  | k + 1 =>
    (cgStep_inv_and_decrease hA hpd hsol _ (cgIter_inv A b xstar hA hpd hsol k)).1

/-- A concrete symmetric positive-definite 3 by 3 operator (it factors as
L times L transpose for an invertible lower-triangular L). -/
def cexA3 : Matrix (Fin 3) (Fin 3) ℚ := !![4, 6, 6; 6, 18, 6; 6, 6, 11]

/-- A concrete right-hand side on which conjugate gradients exhibits a
residual-norm increase. -/
def cexB3 : Fin 3 → ℚ := ![2, -3, 3]

theorem cexA3_posdef : ∀ v : Fin 3 → ℚ, v ≠ 0 → 0 < dotProduct v (cexA3.mulVec v) := by
  intro v hv
  have hval : dotProduct v (cexA3.mulVec v)
      = (2 * v 0 + 3 * v 1 + 3 * v 2) * (2 * v 0 + 3 * v 1 + 3 * v 2)
        + (3 * v 1 - v 2) * (3 * v 1 - v 2) + v 2 * v 2 := by
    simp [cexA3, dotProduct, Matrix.mulVec, Fin.sum_univ_three, Matrix.vecHead,
      Matrix.vecTail]
    ring
  rw [hval]
  by_contra hle
  push_neg at hle
  have n1 := mul_self_nonneg (2 * v 0 + 3 * v 1 + 3 * v 2)
  have n2 := mul_self_nonneg (3 * v 1 - v 2)
  have n3 := mul_self_nonneg (v 2)
  have e3 : v 2 * v 2 = 0 := by nlinarith
  have e2 : (3 * v 1 - v 2) * (3 * v 1 - v 2) = 0 := by nlinarith
  have e1 : (2 * v 0 + 3 * v 1 + 3 * v 2) * (2 * v 0 + 3 * v 1 + 3 * v 2) = 0 := by
    nlinarith
  have z3 : v 2 = 0 := mul_self_eq_zero.mp e3
  have z2 : v 1 = 0 := by
    have h := mul_self_eq_zero.mp e2
    rw [z3] at h
    linarith
  have z1 : v 0 = 0 := by
    have h := mul_self_eq_zero.mp e1
    rw [z2, z3] at h
    linarith
  exact hv (funext fun i => by fin_cases i <;> simp [z1, z2, z3])

/-- Claim C6 counterexample: on the symmetric positive-definite operator
cexA3 with right-hand side cexB3 and an unmet tolerance, a single
conjugate-gradient solve observes the squared residual norms
22, 34254/28561, 9231453/375769, 0 in order: the residual norm increases from
iteration 1 (about 1.2) to iteration 2 (about 24.6), so the residual norm is
not non-increasing across iterations. -/
theorem cg_residual_not_monotone_counterexample :
    cexA3.transpose = cexA3 ∧
      (∀ v : Fin 3 → ℚ, v ≠ 0 → 0 < dotProduct v (cexA3.mulVec v)) ∧
      cgSolveTrace cexA3 cexB3 (1/1000000) 3
        = [22, 34254/28561, 9231453/375769, 0] ∧
      (34254/28561 : ℚ) < 9231453/375769 :=
  ⟨by decide, cexA3_posdef, by decide, by decide⟩

/-- Claim C6 (amended): within a single conjugate-gradient solve on a
symmetric positive-definite operator, the squared A-norm of the error
(equivalently, the squared A-inverse-norm of the residual) is non-increasing
from each iteration to the next; the plain residual norm may transiently
increase, as the counterexample shows. -/
theorem cg_error_Anorm_monotone {n : ℕ} (A : Matrix (Fin n) (Fin n) ℚ)
    (b xstar : Fin n → ℚ) (hA : A.transpose = A)
    (hpd : ∀ v, v ≠ 0 → 0 < dotProduct v (A.mulVec v))
    (hsol : A.mulVec xstar = b) (k : ℕ) :
    errASq A xstar (cgIter A b (k + 1)).x ≤ errASq A xstar (cgIter A b k).x :=
  (cgStep_inv_and_decrease hA hpd hsol _ (cgIter_inv A b xstar hA hpd hsol k)).2

theorem one_posdef {n : ℕ} : ∀ v : Fin n → ℚ, v ≠ 0 →
    0 < dotProduct v ((1 : Matrix (Fin n) (Fin n) ℚ).mulVec v) := fun v hv => by
  rw [Matrix.one_mulVec]
  exact dotProduct_self_pos_q v hv

theorem cg_error_Anorm_monotone_witness :
    (1 : Matrix (Fin 2) (Fin 2) ℚ).transpose = 1 ∧
      (1 : Matrix (Fin 2) (Fin 2) ℚ).mulVec ![1, 2] = ![1, 2] ∧
      errASq (1 : Matrix (Fin 2) (Fin 2) ℚ) ![1, 2] (cgIter 1 ![1, 2] 1).x
        ≤ errASq (1 : Matrix (Fin 2) (Fin 2) ℚ) ![1, 2] (cgIter 1 ![1, 2] 0).x :=
  ⟨by decide, by decide,
    cg_error_Anorm_monotone 1 ![1, 2] ![1, 2] (by decide) one_posdef (by decide) 0⟩

-- Structured operators: Kronecker product and diagonal.

/-- Modelled from the spec: the structured matrix-vector product of a
Kronecker-product operator, applying the right factor and then the left
factor without materialising the dense Kronecker product; indices of the
product space are pairs. -/
def kronMatVec {m p : ℕ} (A : Matrix (Fin m) (Fin m) ℚ)
    (B : Matrix (Fin p) (Fin p) ℚ) (v : Fin m × Fin p → ℚ) :
    Fin m × Fin p → ℚ :=
  fun ij => ∑ k, A ij.1 k * ∑ l, B ij.2 l * v (k, l)

/-- The dense Kronecker product of two operators, materialised entrywise. -/
def denseKron {m p : ℕ} (A : Matrix (Fin m) (Fin m) ℚ)
    (B : Matrix (Fin p) (Fin p) ℚ) :
    Matrix (Fin m × Fin p) (Fin m × Fin p) ℚ :=
  fun ij kl => A ij.1 kl.1 * B ij.2 kl.2

theorem kronMatVec_eq_dense {m p : ℕ} (A : Matrix (Fin m) (Fin m) ℚ)
    (B : Matrix (Fin p) (Fin p) ℚ) (v : Fin m × Fin p → ℚ) :
    kronMatVec A B v = (denseKron A B).mulVec v := by
  funext ij
  simp only [kronMatVec, denseKron, Matrix.mulVec, dotProduct]
  rw [Fintype.sum_prod_type]
  simp only [Finset.mul_sum]
  exact Finset.sum_congr rfl fun k _ => Finset.sum_congr rfl fun l _ => by ring

/-- Claim C4: for operators A of size 3 and B of size 4 and every vector of
matching size, the structured Kronecker matrix-vector product equals the
dense Kronecker product of A and B applied to the vector. -/
theorem kron_matmul_matches_dense (A : Matrix (Fin 3) (Fin 3) ℚ)
    (B : Matrix (Fin 4) (Fin 4) ℚ) (v : Fin 3 × Fin 4 → ℚ) :
    kronMatVec A B v = (denseKron A B).mulVec v :=
  kronMatVec_eq_dense A B v

/-- Modelled from the spec: the diagonal operator matmul, an element-wise
scale. -/
def diagMatmul {n : ℕ} (d v : Fin n → ℚ) : Fin n → ℚ := fun i => d i * v i

/-- Modelled from the spec: the diagonal operator solve, an element-wise
divide, guarded by the declared positive-definiteness contract: it fails
with NumericalError when the contract is declared and some diagonal entry is
non-positive. -/
def diagSolve {n : ℕ} (posContract : Bool) (d b : Fin n → ℚ) :
    Except GPError (Fin n → ℚ) :=
  if posContract = true ∧ ∃ i, d i ≤ 0 then .error .numericalError
  else .ok fun i => b i / d i

/-- Modelled from the spec: the diagonal operator log-determinant, the sum of
the logarithms of the diagonal entries, with the same guard; the
transcendental logarithm is passed as a parameter since it has no exact
rational realisation. -/
def diagLogDet {n : ℕ} (log : ℚ → ℚ) (posContract : Bool) (d : Fin n → ℚ) :
    Except GPError ℚ :=
  if posContract = true ∧ ∃ i, d i ≤ 0 then .error .numericalError
  else .ok (∑ i, log (d i))

/-- Claim C5: for a diagonal operator with a declared positive-definiteness
contract, solve and log-determinant fail with NumericalError exactly when
some diagonal entry is non-positive; when every entry is positive both are
well defined, solve is the element-wise division and log-determinant the sum
of logarithms, so the error branch is unreachable. -/
theorem diag_positivity_guard {n : ℕ} (log : ℚ → ℚ) (d b : Fin n → ℚ) :
    (diagSolve true d b = Except.error GPError.numericalError ↔ ∃ i, d i ≤ 0) ∧
      (diagLogDet log true d = Except.error GPError.numericalError ↔ ∃ i, d i ≤ 0) ∧
      ((∀ i, 0 < d i) →
        diagSolve true d b = Except.ok (fun i => b i / d i) ∧
          diagLogDet log true d = Except.ok (∑ i, log (d i))) := by
  refine ⟨?_, ?_, fun hpos => ?_⟩
  · by_cases h : ∃ i, d i ≤ 0 <;> simp [diagSolve, h]
  · by_cases h : ∃ i, d i ≤ 0 <;> simp [diagLogDet, h]
  · have h : ¬ ∃ i, d i ≤ 0 := by
      push_neg
      exact hpos
    exact ⟨by simp [diagSolve, h], by simp [diagLogDet, h]⟩

theorem diag_positivity_guard_witness :
    (diagSolve true ![1, 2] ![3, 4] = Except.error GPError.numericalError
        ↔ ∃ i, (![1, 2] : Fin 2 → ℚ) i ≤ 0) ∧
      (diagLogDet id true ![1, 2] = Except.error GPError.numericalError
        ↔ ∃ i, (![1, 2] : Fin 2 → ℚ) i ≤ 0) ∧
      ((∀ i, 0 < (![1, 2] : Fin 2 → ℚ) i) →
        diagSolve true ![1, 2] ![3, 4]
            = Except.ok (fun i => (![3, 4] : Fin 2 → ℚ) i / (![1, 2] : Fin 2 → ℚ) i) ∧
          diagLogDet id true ![1, 2] = Except.ok (∑ i, id ((![1, 2] : Fin 2 → ℚ) i))) :=
  diag_positivity_guard id ![1, 2] ![3, 4]

-- End-to-end scenario: 6 regularly spaced training points, kernel matrix
-- plus diagonal noise 0.04, iterative solve against dense Cholesky.

/-- The 6 regularly spaced training inputs spanning [0, 1] of the end-to-end
scenario, matching torch.linspace(0, 1, 6) in the example notebook. -/
def trainX6 : Fin 6 → ℚ := ![0, 1/5, 2/5, 3/5, 4/5, 1]

/-- Modelled from the spec: a 1-D covariance kernel. The spec does not fix
the kernel function of the scenario, so we use the rational-quadratic
(Cauchy) kernel k(x, y) = 1 / (1 + (x - y)^2), a positive-definite kernel
whose values are exactly representable over the rationals. -/
def cauchyKernel (x y : ℚ) : ℚ := 1 / (1 + (x - y) ^ 2)

/-- The kernel matrix over the 6 training inputs. -/
def kernelMatrix6 : Matrix (Fin 6) (Fin 6) ℚ :=
  fun i j => cauchyKernel (trainX6 i) (trainX6 j)

/-- The scenario system matrix: kernel matrix plus the diagonal noise term
0.04. -/
def systemMatrix6 : Matrix (Fin 6) (Fin 6) ℚ :=
  kernelMatrix6 + Matrix.diagonal (fun _ => 4 / 100)

/-- A sampled target vector: rational samples of sin(2 pi x) at the training
inputs, as in the notebook data generation. -/
def targetY6 : Fin 6 → ℚ := ![0, 951/1000, 588/1000, -588/1000, -951/1000, 0]

/-- Square-root-free dense Cholesky solve (the LDL-transpose elimination):
eliminates the first variable against the pivot and recurses on the Schur
complement. Exact over the rationals, where the classical Cholesky square
roots are not representable. -/
def cholSolve : (k : ℕ) → Matrix (Fin k) (Fin k) ℚ → (Fin k → ℚ) → (Fin k → ℚ)
  | 0, _, _ => fun i => i.elim0
  | k + 1, A, b =>
    let a := A 0 0
    let v : Fin k → ℚ := fun i => A i.succ 0
    let S : Matrix (Fin k) (Fin k) ℚ := fun i j => A i.succ j.succ - v i * v j / a
    let b1 : Fin k → ℚ := fun i => b i.succ - b 0 / a * v i
    let x1 := cholSolve k S b1
    let x0 := (b 0 - ∑ i, A 0 i.succ * x1 i) / a
    Fin.cons x0 x1

/-- Claim C3: for the kernel matrix built from the 6 regularly spaced
training points plus the diagonal noise term 0.04, solving for the sampled
target vector via the iterative conjugate-gradient solver (tight tolerance,
generous cap) and via dense Cholesky produce the same solution to within
1e-4 in every coordinate (over exact rationals they agree exactly); the
iterative solve converges without a warning. -/
theorem endToEnd_cg_matches_cholesky :
    (cgSolve systemMatrix6 targetY6 (1/1000000000000) 30).warning = false ∧
      ∀ i, |(cgSolve systemMatrix6 targetY6 (1/1000000000000) 30).solution i
          - cholSolve 6 systemMatrix6 targetY6 i| ≤ 1/10000 :=
  ⟨by decide, by decide⟩

-- Lazy operator trees, the operator store, and immutability of public
-- operations.

/-- Modelled from the spec: the tagged-variant tree of lazy operators
(dense leaf, diagonal leaf, sum composition, scalar scaling), evaluated by
recursive dispatch; composition captures both operands. -/
inductive OpTree (n : ℕ) where
  | dense (M : Matrix (Fin n) (Fin n) ℚ)
  | diag (d : Fin n → ℚ)
  | add (A B : OpTree n)
  | smul (c : ℚ) (A : OpTree n)

/-- Recursive evaluation of an operator tree to its dense matrix (the
explicitly non-preferred path, supported for small sizes). -/
def OpTree.toDense {n : ℕ} : OpTree n → Matrix (Fin n) (Fin n) ℚ
  | .dense M => M
  | .diag d => Matrix.diagonal d
  | .add A B => A.toDense + B.toDense
  | .smul c A => c • A.toDense

/-- Modelled from the spec: the table of constructed operators; an operator
handle is an index into the table. Public operations read the table; only
composition extends it, and no entry is ever changed in place. -/
abbrev OpStore (n : ℕ) := List (OpTree n)

/-- Matrix-vector product against the operator at handle i; returns the
value (none for a dangling handle) and the store after the call. -/
def storeMatmul {n : ℕ} (σ : OpStore n) (i : ℕ) (v : Fin n → ℚ) :
    Option (Fin n → ℚ) × OpStore n :=
  (Option.map (fun t => (OpTree.toDense t).mulVec v) σ[i]?, σ)

/-- Dense evaluation of the operator at handle i, and the store after the
call. -/
def storeToDense {n : ℕ} (σ : OpStore n) (i : ℕ) :
    Option (Matrix (Fin n) (Fin n) ℚ) × OpStore n :=
  (Option.map OpTree.toDense σ[i]?, σ)

/-- Iterative solve against the operator at handle i, and the store after
the call. -/
def storeSolve {n : ℕ} (σ : OpStore n) (i : ℕ) (b : Fin n → ℚ) (tol2 : ℚ)
    (m : ℕ) : Option (Fin n → ℚ) × OpStore n :=
  (Option.map (fun t => (cgSolve (OpTree.toDense t) b tol2 m).solution) σ[i]?, σ)

/-- Sum composition of the operators at handles i and j: appends the new
composite operator and returns its fresh handle. -/
def storeCompose {n : ℕ} (σ : OpStore n) (i j : ℕ) : Option ℕ × OpStore n :=
  match σ[i]?, σ[j]? with
  | some a, some c => (some σ.length, σ ++ [OpTree.add a c])
  | _, _ => (none, σ)

/-- Claim C8: operators are immutable once constructed: matmul, solve and
dense evaluation return the store unchanged, composition only appends so
every existing handle still resolves to the same operator, and two solves
reading the same operator observe the same matrix and return the same
result, with no locking required. -/
theorem operators_immutable {n : ℕ} (σ : OpStore n) (i j : ℕ) (v b : Fin n → ℚ)
    (tol2 : ℚ) (m : ℕ) (k : ℕ) (hk : k < σ.length) :
    (storeMatmul σ i v).2 = σ ∧
      (storeToDense σ i).2 = σ ∧
      (storeSolve σ i b tol2 m).2 = σ ∧
      ((storeCompose σ i j).2)[k]? = σ[k]? ∧
      (storeSolve ((storeSolve σ i b tol2 m).2) i b tol2 m).1
        = (storeSolve σ i b tol2 m).1 := by
  refine ⟨rfl, rfl, rfl, ?_, rfl⟩
  cases h1 : σ[i]? with
  | none => simp [storeCompose, h1]
  | some a =>
    cases h2 : σ[j]? with
    | none => simp [storeCompose, h1, h2]
    | some c =>
      simp only [storeCompose, h1, h2]
      exact List.getElem?_append_left hk

theorem operators_immutable_witness :
    (0 : ℕ) < [OpTree.diag (![1, 2] : Fin 2 → ℚ)].length ∧
      ((storeMatmul [OpTree.diag (![1, 2] : Fin 2 → ℚ)] 0 ![1, 1]).2
          = [OpTree.diag (![1, 2] : Fin 2 → ℚ)] ∧
        (storeToDense [OpTree.diag (![1, 2] : Fin 2 → ℚ)] 0).2
          = [OpTree.diag (![1, 2] : Fin 2 → ℚ)] ∧
        (storeSolve [OpTree.diag (![1, 2] : Fin 2 → ℚ)] 0 ![1, 1] 1 1).2
          = [OpTree.diag (![1, 2] : Fin 2 → ℚ)] ∧
        ((storeCompose [OpTree.diag (![1, 2] : Fin 2 → ℚ)] 0 0).2)[0]?
          = [OpTree.diag (![1, 2] : Fin 2 → ℚ)][0]? ∧
        (storeSolve ((storeSolve [OpTree.diag (![1, 2] : Fin 2 → ℚ)] 0 ![1, 1] 1 1).2)
            0 ![1, 1] 1 1).1
          = (storeSolve [OpTree.diag (![1, 2] : Fin 2 → ℚ)] 0 ![1, 1] 1 1).1) :=
  ⟨by decide,
    operators_immutable [OpTree.diag ![1, 2]] 0 0 ![1, 1] ![1, 1] 1 1 0 (by decide)⟩

-- The example notebook data pipeline: training inputs, training targets,
-- test batch shape and predictive mean shape.

/-- The linspace primitive of the tensor library: steps regularly spaced
points from a to b inclusive (a single point a when steps = 1). -/
def linspace (a b : ℚ) (steps : ℕ) : List ℚ :=
  (List.range steps).map fun i => a + (b - a) * (i : ℚ) / ((steps : ℚ) - 1)

/-- The training inputs of the example notebook: torch.linspace(0, 1, 6). -/
def trainXList : List ℚ := linspace 0 1 6

/-- The training targets of the notebook: the true function applied to each
training input plus element-wise noise, for an abstract true function g (the
sine of the notebook is not rational) and a noise list shaped like the
inputs. -/
def trainYList (g : ℚ → ℚ) (noise : List ℚ) : List ℚ :=
  (trainXList.zip noise).map fun xe => g xe.1 + xe.2

/-- Claim C10: the training input is exactly the 6 regularly spaced points
0, 1/5, 2/5, 3/5, 4/5, 1 spanning [0, 1] inclusive - 6 points, not the 11
points stated by the adjacent code comment - and the training targets have
the same length 6 whenever the noise vector is shaped like the inputs. -/
theorem train_data_six_points (g : ℚ → ℚ) (noise : List ℚ)
    (hlen : noise.length = 6) :
    trainXList.length = 6 ∧
      trainXList.length ≠ 11 ∧
      trainXList = [0, 1/5, 2/5, 3/5, 4/5, 1] ∧
      trainXList.head? = some 0 ∧
      trainXList.getLast? = some 1 ∧
      (trainYList g noise).length = 6 := by
  refine ⟨by decide, by decide, by decide, by decide, by decide, ?_⟩
  have hx : trainXList.length = 6 := by decide
  rw [trainYList, List.length_map, List.length_zip, hx, hlen]
  exact min_self 6

theorem train_data_six_points_witness :
    ([(0 : ℚ), 0, 0, 0, 0, 0].length = 6) ∧
      (trainXList.length = 6 ∧
        trainXList.length ≠ 11 ∧
        trainXList = [0, 1/5, 2/5, 3/5, 4/5, 1] ∧
        trainXList.head? = some 0 ∧
        trainXList.getLast? = some 1 ∧
        (trainYList id [0, 0, 0, 0, 0, 0]).length = 6) :=
  ⟨by decide, train_data_six_points id [0, 0, 0, 0, 0, 0] (by decide)⟩

/-- The number of posterior hyperparameter samples drawn and loaded by the
notebook (the MCMC run uses 100 samples). -/
def mcmcNumSamples : ℕ := 100

/-- The test inputs of the notebook: torch.linspace(0, 1, 101). -/
def testXList : List ℚ := linspace 0 1 101

/-- Shape of the notebook test tensor after unsqueezing a trailing feature
dimension: [101, 1]. -/
def testShape : List ℕ := [testXList.length, 1]

/-- Shape of the expanded test tensor after unsqueeze(0) followed by
repeating over the loaded samples: [100, 101, 1]. -/
def expandedTestShape : List ℕ := mcmcNumSamples :: testShape

/-- Modelled from the spec: the shape rule of batched GP evaluation (the
model evaluation code is absent from the repository): an input batch of
shape [B, N, D] yields a predictive mean of shape [B, N]; an unbatched
input [N, D] yields [N]. -/
def gpMeanShape (inputShape : List ℕ) : Option (List ℕ) :=
  match inputShape with
  | [batch, numPoints, _features] => some [batch, numPoints]
  | [numPoints, _features] => some [numPoints]
  | _ => none

/-- Claim C9: after loading the 100 posterior hyperparameter samples and
evaluating on the batch of 100 copies of the 101 test points, the
predictive mean has shape [100, 101]: the leading dimension equals the
number of loaded samples and the trailing dimension the number of test
points, matching the torch.Size([100, 101]) recorded in the notebook. -/
theorem predictive_mean_shape :
    gpMeanShape expandedTestShape = some [mcmcNumSamples, testXList.length] ∧
      mcmcNumSamples = 100 ∧
      testXList.length = 101 ∧
      gpMeanShape expandedTestShape = some [100, 101] :=
  ⟨by decide, by decide, by decide, by decide⟩
